import Mathlib

/-!
Verification of the stalwart JMAP server's replication core against its
natural-language specification.  The definitions below are shallow embeddings
of the Rust sources:

* `src/src/cluster/raft.rs`                          (election quorum, votes, log comparison)
* `src/src/cluster/leader/spawn_leader.rs`           (leader replication driver)
* `src/components/store/src/write/id_assign.rs`      (document-ID assignment)
* `src/components/jmap/src/orm/merge.rs`             (ORM merge engine)
* `src/src/services/push_subscription.rs`            (push-delivery constants and gates)

Machine integers (`u32`, `u64`) are modelled as `Nat`, with explicit
`% 2 ^ 64` where the source relies on wrapping arithmetic.  Compressed
bitmaps (`RoaringBitmap`, `RoaringTreemap`) are modelled as `Finset ℕ` or as
sorted lists of naturals where only membership matters.
-/

namespace Stalwart

/-! ## Raft state: quorum, votes, log comparison (`src/src/cluster/raft.rs`) -/

/-- `u64::MAX`, the sentinel used by `RaftId::none()` and `LogIndex::MAX`. -/
def U64_MAX : ℕ := 2 ^ 64 - 1

/-- `RaftId { term, index }` from `store::log::raft` (values are `u64`). -/
structure RaftId where
  term : ℕ
  index : ℕ
deriving DecidableEq, Repr

/-- `RaftId::none()`: both fields are `u64::MAX`. -/
def RaftId.none : RaftId := ⟨U64_MAX, U64_MAX⟩

/-- `u64::wrapping_add(1)` on a value already reduced modulo `2^64`. -/
def wrappingAdd1 (x : ℕ) : ℕ := (x + 1) % 2 ^ 64

/-- `Cluster::log_is_behind_or_eq` (raft.rs:90-94): the candidate's last log
`(last_log_term, last_log_index)` is at least the local `self.last_log`,
comparing indexes after `wrapping_add(1)` so that `u64::MAX` is smallest. -/
def log_is_behind_or_eq (selfLast : RaftId) (last_log_term last_log_index : ℕ) : Bool :=
  decide (last_log_term > selfLast.term) ||
    (decide (last_log_term = selfLast.term) &&
      decide (wrappingAdd1 last_log_index ≥ wrappingAdd1 selfLast.index))

/-- `Cluster::log_is_behind` (raft.rs:96-100): strict version. -/
def log_is_behind (selfLast : RaftId) (last_log_term last_log_index : ℕ) : Bool :=
  decide (last_log_term > selfLast.term) ||
    (decide (last_log_term = selfLast.term) &&
      decide (wrappingAdd1 last_log_index > wrappingAdd1 selfLast.index))

/-- The floating-point majority expression `((n as f64 + 1.0) / 2.0).floor() as u32`
from raft.rs:58 and raft.rs:245, modelled over exact rationals.  Every
intermediate value (`n`, `n + 1`, `(n + 1) / 2`) of a `u32` input is exactly
representable in an IEEE `f64` (all are integers or half-integers below
`2 ^ 33 < 2 ^ 53`), so the `f64` computation incurs no rounding and agrees
with the exact rational computation modelled here. -/
def floatFloorHalfSucc (n : ℕ) : ℕ := ⌊((n : ℚ) + 1) / 2⌋₊

/-- `Cluster::has_election_quorum` (raft.rs:56-59), parameterised by the
`(total, healthy)` pair returned by `shard_status()` (whose body lies outside
the sources under verification). -/
def has_election_quorum (total healthy : ℕ) : Bool :=
  decide (healthy ≥ floatFloorHalfSucc total)

/-- The slice of `Peer` state read by `count_vote`:
`{ peer_id, shard_id, vote_granted }`. -/
structure Peer where
  peer_id : ℕ
  shard_id : ℕ
  vote_granted : Bool
deriving DecidableEq, Repr

/-- `Peer::is_in_shard` (membership test used throughout raft.rs). -/
def Peer.is_in_shard (p : Peer) (shard_id : ℕ) : Bool := decide (p.shard_id = shard_id)

/-- One iteration of the `count_vote` loop (raft.rs:233-243): the state is
`(total_peers, votes, updated peer list)`. -/
def count_vote_step (shard_id vote_peer_id : ℕ) (st : ℕ × ℕ × List Peer) (peer : Peer) :
    ℕ × ℕ × List Peer :=
  if peer.is_in_shard shard_id then
    if peer.peer_id = vote_peer_id then
      (st.1 + 1, st.2.1 + 1, st.2.2 ++ [{ peer with vote_granted := true }])
    else if peer.vote_granted then
      (st.1 + 1, st.2.1 + 1, st.2.2 ++ [peer])
    else
      (st.1 + 1, st.2.1, st.2.2 ++ [peer])
  else
    (st.1, st.2.1, st.2.2 ++ [peer])

/-- `Cluster::count_vote` (raft.rs:228-246).  Marks `vote_granted` on the peer
that just voted, counts this node's own vote (`votes = 1` initially) plus all
granted shard peers, and returns whether
`votes > ((total_peers as f64 + 1.0) / 2.0).floor() as u32`. -/
def count_vote (shard_id : ℕ) (peers : List Peer) (vote_peer_id : ℕ) : List Peer × Bool :=
  let st := peers.foldl (count_vote_step shard_id vote_peer_id) (0, 1, [])
  (st.2.2, decide (st.2.1 > floatFloorHalfSucc st.1))

/-! ## Leader replication driver (`src/src/cluster/leader/spawn_leader.rs`)

Compressed document-ID bitmaps (`RoaringBitmap`) are modelled as lists of
naturals; only emptiness and wholesale reassignment matter here. -/

/-- `MergedChanges { inserts, updates, deletes }` (constructed in
`cluster/log/changes_merge.rs`; the fields are read and reassigned in
spawn_leader.rs:531-535). -/
structure MergedChanges where
  inserts : List ℕ
  updates : List ℕ
  deletes : List ℕ
deriving DecidableEq, Repr

/-- The leader driver's `State` enum; every variant and its fields appear in
the constructions of spawn_leader.rs (lines 43, 62-64, 81-235, 390-560). -/
inductive LeaderState where
  | BecomeLeader : LeaderState
  | Synchronize : LeaderState
  | Merge (matched_log : RaftId) : LeaderState
  | Wait : LeaderState
  | AppendLogs (pending_changes : List ℕ) : LeaderState
  | AppendChanges (account_id : ℕ) (collection : ℕ) (changes : MergedChanges)
      (is_rollback : Bool) : LeaderState
  | AppendBlobs (pending_blob_ids : List ℕ) : LeaderState
deriving DecidableEq, Repr

/-- Cluster events the driver sends to the coordinator over `main_tx`
(spawn_leader.rs:241, 377, 480). -/
inductive ClusterEvent where
  | StepDown (term : ℕ) : ClusterEvent
  | AdvanceCommitIndex (peer_id : ℕ) (commit_index : ℕ) : ClusterEvent
deriving DecidableEq, Repr

/-- The pure tail of the driver's `AppendEntriesResponse` match
(spawn_leader.rs:476-562): `Continue`, `Done`, `Update` and `FetchBlobs` are
handled without store access.  (`Match` and `Synchronize` consult the log
store and are not needed by the claims below.) -/
inductive AppendEntriesResponseTail where
  | Continue : AppendEntriesResponseTail
  | Done (up_to_index : ℕ) : AppendEntriesResponseTail
  | Update (account_id : ℕ) (collection : ℕ) (changes : MergedChanges)
      (is_rollback : Bool) : AppendEntriesResponseTail
  | FetchBlobs (blob_ids : List ℕ) : AppendEntriesResponseTail
deriving DecidableEq, Repr

/-- spawn_leader.rs:531-535: after deserializing the `MergedChanges` of an
`Update` response, the driver moves `deletes` into `inserts` (and clears
`deletes`) whenever `deletes` is non-empty.  The comment in the source reads
"Restore deletions." -/
def restore_deletes (changes : MergedChanges) : MergedChanges :=
  if !changes.deletes.isEmpty then
    { changes with inserts := changes.deletes, deletes := [] }
  else
    changes

/-- The driver's handling of the pure response variants
(spawn_leader.rs:476-562), given the `MergedChanges` of an `Update` response
already deserialized (`MergedChanges::from_bytes` lives outside the sources
under verification; its failure aborts the driver before this point).
Returns the events sent to the coordinator and the next state. -/
def handle_response_tail (peer_id uncommitted_index : ℕ) (state : LeaderState)
    (response : AppendEntriesResponseTail) : List ClusterEvent × LeaderState :=
  match response with
  | .Continue => ([], state)
  | .Done up_to_index =>
      ((if up_to_index ≠ U64_MAX then
          [ClusterEvent.AdvanceCommitIndex peer_id up_to_index]
        else []),
       if up_to_index ≠ uncommitted_index then
         LeaderState.AppendLogs []
       else
         LeaderState.Wait)
  | .Update account_id collection changes is_rollback =>
      ([], LeaderState.AppendChanges account_id collection (restore_deletes changes)
        is_rollback)
  | .FetchBlobs blob_ids => ([], LeaderState.AppendBlobs blob_ids)

/-- The request sent for one `State::AppendBlobs` dispatch
(spawn_leader.rs:219-228): `AppendEntries::Update { commit_index, updates }`. -/
structure BlobUpdateRequest where
  term : ℕ
  commit_index : ℕ
  updates : List ℕ
deriving DecidableEq, Repr

/-- One dispatch of `State::AppendBlobs { pending_blob_ids }`
(spawn_leader.rs:210-235).  `prepare_blobs` (defined outside the sources
under verification) is passed in as a function returning
`(updates, remaining)` on success and `none` on error.  The driver breaks out
of its main loop — returning `none` here, with no request sent — when the
pending list is empty or `prepare_blobs` fails; otherwise it sends the
prepared updates and stays in `AppendBlobs` with the remaining ids. -/
def step_append_blobs (prepare_blobs : List ℕ → Option (List ℕ × List ℕ))
    (term commit_index : ℕ) (pending_blob_ids : List ℕ) :
    Option (BlobUpdateRequest × LeaderState) :=
  if pending_blob_ids.isEmpty then
    none
  else
    match prepare_blobs pending_blob_ids with
    | some (updates, remaining) =>
        some (⟨term, commit_index, updates⟩, LeaderState.AppendBlobs remaining)
    | none => none

/-! ## Document-ID assignment (`src/components/store/src/write/id_assign.rs`)

The `RoaringBitmap` of used document IDs is modelled as a `Finset ℕ`. -/

/-- `IdAssigner { freed_ids, next_id }` (id_assign.rs:26-29). -/
structure IdAssigner where
  freed_ids : Option (Finset ℕ)
  next_id : ℕ
deriving DecidableEq

/-- `IdAssigner::new` (id_assign.rs:32-50): from a used-ID bitmap, set
`next_id = max(used)+1` and `freed = (0..next_id) XOR used`, storing `freed`
only when non-empty.  `used_ids.max().unwrap()` panics on an empty bitmap;
the panic is modelled as `none`. -/
def IdAssigner.new (used_ids : Option (Finset ℕ)) : Option IdAssigner :=
  match used_ids with
  | none => some ⟨none, 0⟩
  | some used =>
      if h : used.Nonempty then
        let next_id := used.max' h + 1
        let freed := symmDiff (Finset.range next_id) used
        some ⟨if freed = ∅ then none else some freed, next_id⟩
      else none

/-- `IdAssigner::assign_document_id` (id_assign.rs:52-65): pop the minimum of
`freed_ids` while present (clearing the field once exhausted), else return
`next_id` and increment it.  The `freed_ids.min().unwrap()` panic is modelled
as `none` (unreachable: the field is kept non-empty). -/
def IdAssigner.assign_document_id : IdAssigner → Option (ℕ × IdAssigner)
  | ⟨some freed, next_id⟩ =>
      if h : freed.Nonempty then
        let id := freed.min' h
        let freed := freed.erase id
        some (id, ⟨if freed = ∅ then none else some freed, next_id⟩)
      else none
  | ⟨none, next_id⟩ => some (next_id, ⟨none, next_id + 1⟩)

/-- `n` successive `assign_document_id` calls, collecting the returned IDs. -/
def IdAssigner.assign_many : IdAssigner → ℕ → Option (List ℕ × IdAssigner)
  | a, 0 => some ([], a)
  | a, n + 1 =>
      match a.assign_document_id with
      | some (id, a) =>
          match a.assign_many n with
          | some (ids, a) => some (id :: ids, a)
          | none => none
      | none => none

/-! ## ORM merge engine (`src/components/jmap/src/orm/merge.rs`)

`TinyORM<T>` is generic over an object kind `T` providing `required()`,
`indexed()` and a value type with `index_as()` / `is_empty()`; the embedding
is parameterised by a value type `V` and a `Schema V` bundling those trait
operations.  `Property` and `Tag` values are numbered; `HashMap`s are
represented as association lists in iteration order. -/

/-- The `Index` enum produced by `Value::index_as()` (orm module; the variants
and their payloads are exactly those matched in merge.rs:55-186).  `Integer`
(`u32`) and `LongInteger` (`u64`) payloads are both `ℕ`. -/
inductive Index where
  | Null : Index
  | Text (value : String) : Index
  | TextList (value : List String) : Index
  | Integer (value : ℕ) : Index
  | LongInteger (value : ℕ) : Index
  | IntegerList (value : List ℕ) : Index
deriving DecidableEq, Repr

/-- The CLEAR bit of `IndexOptions`.  Modelled from the spec: `options` is a
bitset combining `{STORE, INDEX, TOKENIZE, CLEAR}` (the concrete bit layout
of `store::write::options` lies outside the sources under verification; only
which bit CLEAR is matters). -/
def F_CLEAR : ℕ := 8

/-- `IndexOptions::clear()`: set the CLEAR bit. -/
def optionsClear (options : ℕ) : ℕ := options ||| F_CLEAR

/-- An ACL entry, keyed by `id` (spec §3: "acls: ordered list of ACL entries,
each keyed by `id`"; merge.rs compares whole entries and entry ids). -/
structure ACLEntry where
  id : ℕ
  acl : ℕ
deriving DecidableEq, Repr

/-- Index mutations accumulated in the `Document` builder by merge
(`document.text/number/tag/acl`, merge.rs throughout; the `Language`
argument is always `Language::Unknown` and is omitted).  `insertOrm` stands
for the re-serialization `self.insert_orm(document)` of merge.rs:266, whose
body (a binary mutation holding the serialized ORM) lies outside the sources
under verification. -/
inductive Mutation where
  | text (property : ℕ) (value : String) (options : ℕ) : Mutation
  | number (property : ℕ) (value : ℕ) (options : ℕ) : Mutation
  | tag (property : ℕ) (tagValue : ℕ) (options : ℕ) : Mutation
  | acl (id : ℕ) (aclValue : ℕ) (options : ℕ) : Mutation
  | insertOrm : Mutation
deriving DecidableEq, Repr

/-- The property a mutation is keyed by (`None` for ACL mutations, which are
keyed by ACL id, and for the ORM re-serialization). -/
def Mutation.propertyOf : Mutation → Option ℕ
  | .text p _ _ => some p
  | .number p _ _ => some p
  | .tag p _ _ => some p
  | .acl _ _ _ => none
  | .insertOrm => none

/-- The `Object` trait operations used by merge (`T::required()`,
`T::indexed()`, merge.rs:18 and 35) and the value operations
(`Value::index_as()`, `Value::is_empty()`). -/
structure Schema (V : Type) where
  required : List ℕ
  indexed : List (ℕ × ℕ)
  index_as : V → Index
  is_empty : V → Bool

/-- `TinyORM` slices touched by merge: `properties`, `tags`, `acls`. -/
structure TinyORM (V : Type) where
  properties : List (ℕ × V)
  tags : List (ℕ × List ℕ)
  acls : List ACLEntry

/-- `HashMap::get`: first association for the key. -/
def mapGet {V : Type} (m : List (ℕ × V)) (k : ℕ) : Option V :=
  (m.find? (fun e => e.1 == k)).map (fun e => e.2)

/-- `HashMap::insert`: replace the association, or append it. -/
def mapInsert {V : Type} (m : List (ℕ × V)) (k : ℕ) (v : V) : List (ℕ × V) :=
  if (m.find? (fun e => e.1 == k)).isSome then
    m.map (fun e => if e.1 == k then (k, v) else e)
  else
    m ++ [(k, v)]

/-- `HashMap::remove`. -/
def mapRemove {V : Type} (m : List (ℕ × V)) (k : ℕ) : List (ℕ × V) :=
  m.filter (fun e => e.1 != k)

/-- `HashSet` equality for tag sets. -/
def setEq (a b : List ℕ) : Bool :=
  a.all (fun x => b.contains x) && b.all (fun x => a.contains x)

/-- `HashMap<Property, HashSet<Tag>>` equality: every key of either side is
present in the other with a set-equal value. -/
def tagMapEq (a b : List (ℕ × List ℕ)) : Bool :=
  (a.all (fun e => match mapGet b e.1 with
    | some s => setEq e.2 s
    | none => false)) &&
  (b.all (fun e => (mapGet a e.1).isSome))

/-- Whether a property appears in `T::indexed()` (merge.rs:39-49). -/
def isIndexed {V : Type} (S : Schema V) (property : ℕ) : Bool :=
  (S.indexed.find? (fun e => e.1 == property)).isSome

/-- The schema's `index_options` for a property, defaulting to `0`
(merge.rs:39-49: `.unwrap_or((false, &0))`). -/
def indexOptionsOf {V : Type} (S : Schema V) (property : ℕ) : ℕ :=
  ((S.indexed.find? (fun e => e.1 == property)).map (fun e => e.2)).getD 0

/-- The insert branch of the property loop (merge.rs:155-200): emit ADDs for
the indexed form of `new_value` (storing it unless it indexes as `Null`), or
store a non-indexed value iff it is non-empty; the property is removed
otherwise.  `clears` are the CLEAR mutations emitted beforehand by the
fall-through arms.  Reaching this branch always sets `has_changes`. -/
def mergePropAdds {V : Type} (S : Schema V) (property : ℕ) (new_value : V) :
    List Mutation × Bool :=
  if isIndexed S property then
    match S.index_as new_value with
    | .Text v => ([Mutation.text property v (indexOptionsOf S property)], true)
    | .TextList v =>
        (v.map (fun item => Mutation.text property item (indexOptionsOf S property)), true)
    | .Integer v => ([Mutation.number property v (indexOptionsOf S property)], true)
    | .IntegerList v =>
        (v.map (fun item => Mutation.number property item (indexOptionsOf S property)), true)
    | .LongInteger v => ([Mutation.number property v (indexOptionsOf S property)], true)
    | .Null => ([], false)
  else
    ([], !(S.is_empty new_value))

/-- The remainder of the insert branch: append the ADDs to the pending CLEARs
and store or remove the property. -/
def mergePropInsert {V : Type} (S : Schema V) (properties : List (ℕ × V))
    (property : ℕ) (new_value : V) (clears : List Mutation) :
    List Mutation × List (ℕ × V) × Bool :=
  (clears ++ (mergePropAdds S property new_value).1,
   if (mergePropAdds S property new_value).2 then mapInsert properties property new_value
   else mapRemove properties property,
   true)

/-- One iteration of the property loop (merge.rs:38-201) on the current
`properties` map, returning the emitted mutations, the updated map, and
whether this iteration set `has_changes`.  An unchanged value is skipped
(merge.rs:52); an indexed changed value first emits CLEARs for its current
indexed form, with the list-to-matching-list arms diffing the two lists and
returning directly (`continue`, merge.rs:78-149); every other arm falls
through to the insert branch. -/
def mergeProp {V : Type} [DecidableEq V] (S : Schema V) (properties : List (ℕ × V))
    (property : ℕ) (new_value : V) : List Mutation × List (ℕ × V) × Bool :=
  match mapGet properties property with
  | some current_value =>
      if current_value = new_value then
        ([], properties, false)
      else if isIndexed S property then
        match S.index_as current_value with
        | .Text cv =>
            mergePropInsert S properties property new_value
              [Mutation.text property cv (optionsClear (indexOptionsOf S property))]
        | .Integer cv =>
            mergePropInsert S properties property new_value
              [Mutation.number property cv (optionsClear (indexOptionsOf S property))]
        | .LongInteger cv =>
            mergePropInsert S properties property new_value
              [Mutation.number property cv (optionsClear (indexOptionsOf S property))]
        | .TextList cv =>
            match S.index_as new_value with
            | .TextList nv =>
                ((cv.filter (fun item => !nv.contains item)).map
                    (fun item => Mutation.text property item (optionsClear (indexOptionsOf S property))) ++
                  (nv.filter (fun item => !cv.contains item)).map
                    (fun item => Mutation.text property item (indexOptionsOf S property)),
                 mapInsert properties property new_value, true)
            | _ =>
                (cv.map (fun item =>
                    Mutation.text property item (optionsClear (indexOptionsOf S property))),
                 mapRemove properties property, true)
        | .IntegerList cv =>
            match S.index_as new_value with
            | .IntegerList nv =>
                ((cv.filter (fun item => !nv.contains item)).map
                    (fun item => Mutation.number property item (optionsClear (indexOptionsOf S property))) ++
                  (nv.filter (fun item => !cv.contains item)).map
                    (fun item => Mutation.number property item (indexOptionsOf S property)),
                 mapInsert properties property new_value, true)
            | _ =>
                (cv.map (fun item =>
                    Mutation.number property item (optionsClear (indexOptionsOf S property))),
                 mapRemove properties property, true)
        | .Null => mergePropInsert S properties property new_value []
      else
        mergePropInsert S properties property new_value []
  | none => mergePropInsert S properties property new_value []

/-- The whole property pass: fold `mergeProp` over `changes.properties` in
iteration order, accumulating the document and the `has_changes` flag. -/
def mergeProps {V : Type} [DecidableEq V] (S : Schema V) :
    List (ℕ × V) → List (ℕ × V) → List Mutation → Bool →
      List Mutation × List (ℕ × V) × Bool
  | [], properties, document, has_changes => (document, properties, has_changes)
  | (property, new_value) :: rest, properties, document, has_changes =>
      let r := mergeProp S properties property new_value
      mergeProps S rest r.2.1 (document ++ r.1) (has_changes || r.2.2)

/-- The tag pass (merge.rs:203-245): when the tag maps differ, emit CLEARs
for tags of `self` dropped by `changes` (for properties present in both) and
ADDs for tags of `changes` new to `self` (or all tags of a property absent
from `self`), and set `has_changes`. -/
def mergeTags (selfTags changesTags : List (ℕ × List ℕ)) : List Mutation × Bool :=
  if tagMapEq selfTags changesTags then
    ([], false)
  else
    (selfTags.flatMap (fun e =>
        match mapGet changesTags e.1 with
        | some changed_tags =>
            if setEq e.2 changed_tags then []
            else (e.2.filter (fun t => !changed_tags.contains t)).map
              (fun t => Mutation.tag e.1 t (optionsClear 0))
        | none => []) ++
      changesTags.flatMap (fun e =>
        match mapGet selfTags e.1 with
        | some tags =>
            if setEq e.2 tags then []
            else (e.2.filter (fun t => !tags.contains t)).map
              (fun t => Mutation.tag e.1 t 0)
        | none => e.2.map (fun t => Mutation.tag e.1 t 0)),
     true)

/-- The ACL pass (merge.rs:247-263): when the ACL vectors differ, emit a
CLEAR for each `self` entry whose id is absent from `changes` and an ADD for
each `changes` entry not fully equal to some `self` entry, and set
`has_changes`. -/
def mergeAcls (selfAcls changesAcls : List ACLEntry) : List Mutation × Bool :=
  if selfAcls = changesAcls then
    ([], false)
  else
    ((selfAcls.filter (fun a => !(changesAcls.any (fun ca => ca.id == a.id)))).map
        (fun a => Mutation.acl a.id a.acl (optionsClear 0)) ++
      (changesAcls.filter (fun a => !(selfAcls.contains a))).map
        (fun a => Mutation.acl a.id a.acl 0),
     true)

/-- `TinyORM::merge` (merge.rs:34-271): property pass, tag pass, ACL pass;
when anything changed, re-serialize the ORM into the document and return
`true`, else return `false`.  The returned pair is the final document
mutation list and the `has_changes` flag (the only error path of the source
is the serialization in `insert_orm`, outside the sources under
verification). -/
def TinyORM.merge {V : Type} [DecidableEq V] (S : Schema V) (self : TinyORM V)
    (document : List Mutation) (changes : TinyORM V) : List Mutation × Bool :=
  let r := mergeProps S changes.properties self.properties document false
  let t := mergeTags self.tags changes.tags
  let a := mergeAcls self.acls changes.acls
  let has_changes := r.2.2 || t.2 || a.2
  let doc := r.1 ++ t.1 ++ a.1
  if has_changes then (doc ++ [Mutation.insertOrm], true) else (doc, false)

/-- `SetError::invalid_property` as raised by `merge_validate`. -/
inductive SetError where
  | invalidProperty (property : ℕ) (message : String) : SetError
deriving DecidableEq, Repr

/-- `TinyORM::merge_validate` (merge.rs:13-32): for the first property of
`T::required()` that `changes` sets empty, or that `changes` omits while
`self` has none, fail with `InvalidProperty("Property cannot be empty.")`;
otherwise merge. -/
def TinyORM.merge_validate {V : Type} [DecidableEq V] (S : Schema V) (self : TinyORM V)
    (document : List Mutation) (changes : TinyORM V) :
    Except SetError (List Mutation × Bool) :=
  match S.required.find? (fun property =>
      match mapGet changes.properties property with
      | some v => S.is_empty v
      | none => (mapGet self.properties property).isNone) with
  | some property =>
      Except.error (SetError.invalidProperty property "Property cannot be empty.")
  | none => Except.ok (TinyORM.merge S self document changes)

/-! ## Push-subscription delivery (`src/src/services/push_subscription.rs`) -/

/-- `PUSH_ATTEMPT_INTERVAL_MS` for a non-test build (push_subscription.rs:97-98). -/
def PUSH_ATTEMPT_INTERVAL_MS : ℕ := 60 * 1000

/-- `PUSH_MAX_ATTEMPTS` (push_subscription.rs:99). -/
def PUSH_MAX_ATTEMPTS : ℕ := 3

/-- `PUSH_TIMEOUT_MS` (push_subscription.rs:100). -/
def PUSH_TIMEOUT_MS : ℕ := 10 * 1000

/-- The HTTP client timeout installed by `http_request`
(push_subscription.rs:347: `Client::builder().timeout(PUSH_TIMEOUT_MS)`). -/
def http_request_timeout_ms : ℕ := PUSH_TIMEOUT_MS

/-- The slice of `PushServer` state read by the delivery gates
(push_subscription.rs:85-93); `last_request` is represented by the elapsed
milliseconds since it. -/
structure PushServer where
  num_attempts : ℕ
  state_changes : List ℕ
  in_flight : Bool
deriving DecidableEq, Repr

/-- The `Event::Push` send gate (push_subscription.rs:206-211): send now iff
not in flight and either this is the first attempt with the throttle passed,
or `num_attempts ∈ 1..PUSH_MAX_ATTEMPTS` and the attempt interval passed. -/
def push_event_send_gate (throttle_ms : ℕ) (sub : PushServer)
    (last_request_elapsed_ms : ℕ) : Bool :=
  !sub.in_flight &&
    ((decide (sub.num_attempts = 0) && decide (last_request_elapsed_ms > throttle_ms)) ||
      (decide (1 ≤ sub.num_attempts) && decide (sub.num_attempts < PUSH_MAX_ATTEMPTS) &&
        decide (last_request_elapsed_ms > PUSH_ATTEMPT_INTERVAL_MS)))

/-- Outcome of one retry-sweep visit to a subscription. -/
inductive RetryAction where
  | send : RetryAction
  | dropReset : RetryAction
  | keep : RetryAction
deriving DecidableEq, Repr

/-- One retry-sweep visit (push_subscription.rs:256-284): when the
subscription is idle and its interval has passed, either `send` it
(`PushServer::send`, lines 309-343, takes the pending state changes and marks
the request in flight) if `num_attempts < PUSH_MAX_ATTEMPTS`, or drop the
pending state changes and reset the attempt counter. -/
def retry_step (throttle_ms : ℕ) (sub : PushServer) (last_request_elapsed_ms : ℕ) :
    RetryAction × PushServer :=
  if !sub.in_flight &&
      ((decide (sub.num_attempts = 0) && decide (last_request_elapsed_ms ≥ throttle_ms)) ||
        (decide (sub.num_attempts > 0) &&
          decide (last_request_elapsed_ms ≥ PUSH_ATTEMPT_INTERVAL_MS))) then
    if sub.num_attempts < PUSH_MAX_ATTEMPTS then
      (RetryAction.send, { sub with in_flight := true, state_changes := [] })
    else
      (RetryAction.dropReset, { sub with state_changes := [], num_attempts := 0 })
  else
    (RetryAction.keep, sub)

/-! ## Theorems -/

/-- The exact value of the floating-point majority expression: for every `n`,
`((n as f64 + 1.0) / 2.0).floor() as u32` equals `⌊(n + 1) / 2⌋`. -/
theorem floatFloorHalfSucc_eq (n : ℕ) : floatFloorHalfSucc n = (n + 1) / 2 := by
  unfold floatFloorHalfSucc
  rw [show ((n : ℚ) + 1) = ((n + 1 : ℕ) : ℚ) by push_cast; ring]
  rw [show (2 : ℚ) = ((2 : ℕ) : ℚ) by norm_num]
  exact @Nat.floor_div_eq_div ℚ _ _ (n + 1) 2

/-- Closed form of the `count_vote` fold (raft.rs:233-243). -/
theorem count_vote_foldl (shard_id vpid : ℕ) (peers : List Peer) (t v : ℕ) (acc : List Peer) :
    peers.foldl (count_vote_step shard_id vpid) (t, v, acc) =
      (t + peers.countP (fun p => p.is_in_shard shard_id),
       v + peers.countP (fun p =>
         p.is_in_shard shard_id && (decide (p.peer_id = vpid) || p.vote_granted)),
       acc ++ peers.map (fun p =>
         if p.is_in_shard shard_id && decide (p.peer_id = vpid) then
           { p with vote_granted := true } else p)) := by
  induction peers generalizing t v acc with
  | nil => simp
  | cons p ps ih =>
    rw [List.foldl_cons, count_vote_step]
    cases h1 : p.is_in_shard shard_id with
    | false =>
      simp [h1, ih, List.countP_cons, Nat.add_assoc, Nat.add_comm, Nat.add_left_comm]
    | true =>
      by_cases h2 : p.peer_id = vpid
      · simp [h1, h2, ih, List.countP_cons, Nat.add_assoc, Nat.add_comm, Nat.add_left_comm]
      · cases h3 : p.vote_granted with
        | false =>
          simp [h1, h2, h3, ih, List.countP_cons, Nat.add_assoc, Nat.add_comm,
            Nat.add_left_comm]
        | true =>
          simp [h1, h2, h3, ih, List.countP_cons, Nat.add_assoc, Nat.add_comm,
            Nat.add_left_comm]

/-- C5: `has_election_quorum` holds iff `healthy ≥ ⌊(total + 1) / 2⌋` for the
`(total, healthy)` pair from `shard_status()`; `count_vote` elects this node
iff `votes > ⌊(total_peers + 1) / 2⌋` where `total_peers` counts this shard's
peers and `votes` counts this node's own vote plus every shard peer with
`vote_granted` (the voter just marked included); and the `f64` majority
expression agrees exactly with `⌊(n + 1) / 2⌋` for every input. -/
theorem c5_quorum_and_vote_majority :
    (∀ n : ℕ, floatFloorHalfSucc n = (n + 1) / 2) ∧
    (∀ total healthy : ℕ,
      has_election_quorum total healthy = true ↔ healthy ≥ (total + 1) / 2) ∧
    (∀ (shard_id vote_peer_id : ℕ) (peers : List Peer),
      (count_vote shard_id peers vote_peer_id).2 = true ↔
        1 + peers.countP (fun p =>
              p.is_in_shard shard_id &&
                (decide (p.peer_id = vote_peer_id) || p.vote_granted)) >
          (peers.countP (fun p => p.is_in_shard shard_id) + 1) / 2) := by
  refine ⟨floatFloorHalfSucc_eq, ?_, ?_⟩
  · intro total healthy
    simp [has_election_quorum, floatFloorHalfSucc_eq]
  · intro shard_id vpid peers
    unfold count_vote
    rw [count_vote_foldl]
    simp only [decide_eq_true_eq, floatFloorHalfSucc_eq]
    omega

/-- Injectivity of `wrapping_add(1)` on `u64` values. -/
theorem wrappingAdd1_inj {i j : ℕ} (hi : i < 2 ^ 64) (hj : j < 2 ^ 64)
    (h : wrappingAdd1 i = wrappingAdd1 j) : i = j := by
  simp only [wrappingAdd1] at h
  omega

/-- C6: `log_is_behind_or_eq` is reflexive; two `RaftId`s each
behind-or-equal to the other are equal (antisymmetry up to equality); and the
`NONE` sentinel index `u64::MAX` compares as the smallest index thanks to
`wrapping_add(1)`. -/
theorem c6_log_behind_or_eq_refl_antisymm :
    (∀ r : RaftId, log_is_behind_or_eq r r.term r.index = true) ∧
    (∀ a b : RaftId, a.index < 2 ^ 64 → b.index < 2 ^ 64 →
      ((log_is_behind_or_eq b a.term a.index = true ∧
        log_is_behind_or_eq a b.term b.index = true) ↔ a = b)) ∧
    (∀ t i : ℕ, i < 2 ^ 64 → log_is_behind_or_eq ⟨t, U64_MAX⟩ t i = true) := by
  refine ⟨?_, ?_, ?_⟩
  · intro r
    simp [log_is_behind_or_eq]
  · intro a b ha hb
    constructor
    · rintro ⟨h1, h2⟩
      simp only [log_is_behind_or_eq, Bool.or_eq_true, Bool.and_eq_true,
        decide_eq_true_eq] at h1 h2
      have hterm : a.term = b.term := by omega
      have hidx : a.index = b.index := by
        apply wrappingAdd1_inj ha hb
        have w1 : wrappingAdd1 a.index ≥ wrappingAdd1 b.index := by
          rcases h1 with h | ⟨_, h⟩
          · omega
          · exact h
        have w2 : wrappingAdd1 b.index ≥ wrappingAdd1 a.index := by
          rcases h2 with h | ⟨_, h⟩
          · omega
          · exact h
        omega
      cases a; cases b
      simp_all
    · rintro rfl
      constructor <;> simp [log_is_behind_or_eq]
  · intro t i hi
    simp only [log_is_behind_or_eq, Bool.or_eq_true, Bool.and_eq_true, decide_eq_true_eq]
    right
    refine ⟨by simp, ?_⟩
    simp only [wrappingAdd1, U64_MAX]
    omega

/-- C1 counterexample: the claim predicts that when `is_rollback` is false
the deserialized inserts/updates/deletes are kept unchanged, so an `Update`
response with `is_rollback = false` and `deletes = {7}` would enter
`AppendChanges` with those very bitmaps.  The driver instead moves the
non-empty `deletes` into `inserts` regardless of `is_rollback`
(spawn_leader.rs:532 tests `!changes.deletes.is_empty()`, not `is_rollback`). -/
theorem c1_rollback_claim_counterexample :
    handle_response_tail 0 0 LeaderState.Wait
        (AppendEntriesResponseTail.Update 1 2 ⟨[], [], [7]⟩ false) ≠
      ([], LeaderState.AppendChanges 1 2 ⟨[], [], [7]⟩ false) := by
  decide

/-- C1 (amended): on an `Update{account_id, collection, changes, is_rollback}`
response the driver enters `State::AppendChanges` after replacing
`changes.inserts` with `changes.deletes` and emptying `changes.deletes` if and
only if the deserialized `deletes` bitmap is non-empty — irrespective of
`is_rollback`, which is passed through unchanged; when `deletes` is empty the
deserialized bitmaps are kept unchanged.  No coordinator event is emitted. -/
theorem c1_update_moves_nonempty_deletes (peer_id uncommitted_index : ℕ)
    (state : LeaderState) (account_id collection : ℕ) (changes : MergedChanges)
    (is_rollback : Bool) :
    handle_response_tail peer_id uncommitted_index state
        (AppendEntriesResponseTail.Update account_id collection changes is_rollback) =
      ([], LeaderState.AppendChanges account_id collection
        (if changes.deletes.isEmpty then changes
         else ⟨changes.deletes, changes.updates, []⟩)
        is_rollback) := by
  cases changes with
  | mk inserts updates deletes =>
    cases deletes with
    | nil => rfl
    | cons d ds => rfl

/-- C7: on `Done{up_to_index}` the driver emits
`AdvanceCommitIndex{peer_id, up_to_index}` iff `up_to_index ≠ u64::MAX`
(and emits nothing otherwise), then moves to `AppendLogs{∅}` iff
`up_to_index ≠ uncommitted_index` and to `Wait` iff they are equal. -/
theorem c7_done_advances_commit_and_transitions
    (peer_id uncommitted_index up_to_index : ℕ) (state : LeaderState) :
    ((handle_response_tail peer_id uncommitted_index state
        (AppendEntriesResponseTail.Done up_to_index)).1 =
          [ClusterEvent.AdvanceCommitIndex peer_id up_to_index] ↔
        up_to_index ≠ U64_MAX) ∧
    ((handle_response_tail peer_id uncommitted_index state
        (AppendEntriesResponseTail.Done up_to_index)).1 = [] ↔
        up_to_index = U64_MAX) ∧
    ((handle_response_tail peer_id uncommitted_index state
        (AppendEntriesResponseTail.Done up_to_index)).2 =
          LeaderState.AppendLogs [] ↔ up_to_index ≠ uncommitted_index) ∧
    ((handle_response_tail peer_id uncommitted_index state
        (AppendEntriesResponseTail.Done up_to_index)).2 =
          LeaderState.Wait ↔ up_to_index = uncommitted_index) := by
  refine ⟨?_, ?_, ?_, ?_⟩ <;>
    by_cases h1 : up_to_index = U64_MAX <;>
      by_cases h2 : up_to_index = uncommitted_index <;>
        simp [handle_response_tail, h1, h2]

/-- C8: dispatching `State::AppendBlobs` with an empty `pending_blob_ids`
terminates the driver without sending anything; with a non-empty list it
sends the updates prepared by `prepare_blobs` and stays in `AppendBlobs`
holding the remaining ids (so it keeps looping while the remainder is
non-empty). -/
theorem c8_append_blobs_empty_aborts
    (prepare_blobs : List ℕ → Option (List ℕ × List ℕ)) (term commit_index : ℕ)
    (pending_blob_ids : List ℕ) :
    (pending_blob_ids = [] →
      step_append_blobs prepare_blobs term commit_index pending_blob_ids = none) ∧
    (∀ updates remaining, pending_blob_ids ≠ [] →
      prepare_blobs pending_blob_ids = some (updates, remaining) →
      step_append_blobs prepare_blobs term commit_index pending_blob_ids =
        some (⟨term, commit_index, updates⟩, LeaderState.AppendBlobs remaining)) := by
  constructor
  · rintro rfl
    rfl
  · intro updates remaining hne hprep
    unfold step_append_blobs
    rw [if_neg (by simpa [List.isEmpty_iff] using hne), hprep]

/-- Witness for `c8_append_blobs_empty_aborts`: the empty list aborts, and a
singleton pending list with a concrete `prepare_blobs` sends its updates. -/
theorem c8_append_blobs_witness :
    step_append_blobs (fun l => some (l, [])) 1 2 [] = none ∧
    step_append_blobs (fun l => some (l, [])) 1 2 [5] =
      some (⟨1, 2, [5]⟩, LeaderState.AppendBlobs []) :=
  ⟨(c8_append_blobs_empty_aborts (fun l => some (l, [])) 1 2 []).1 rfl,
   (c8_append_blobs_empty_aborts (fun l => some (l, [])) 1 2 [5]).2 [5] []
      (by decide) rfl⟩

/-- C4: for a non-empty used bitmap `B`, `IdAssigner::new(Some(B))` sets
`next_id = max(B)+1` and `freed = (0..next_id) XOR B`, which equals the set
difference `(0..next_id) \ B`; popping the minimum of `freed` while non-empty
and handing out `next_id++` afterwards; with `B = {0,2,5}` seven successive
calls return `1, 3, 4, 6, 7, 8, 9` in order, all distinct and none in `B`. -/
theorem c4_id_assigner_recycles (B : Finset ℕ) (h : B.Nonempty) :
    (∃ A : IdAssigner, IdAssigner.new (some B) = some A ∧
      A.next_id = B.max' h + 1 ∧
      A.freed_ids.getD ∅ = symmDiff (Finset.range (B.max' h + 1)) B ∧
      A.freed_ids.getD ∅ = Finset.range (B.max' h + 1) \ B) ∧
    (∀ (f : Finset ℕ) (hf : f.Nonempty) (n : ℕ),
      (IdAssigner.mk (some f) n).assign_document_id =
        some (f.min' hf,
          ⟨if f.erase (f.min' hf) = ∅ then none else some (f.erase (f.min' hf)), n⟩)) ∧
    (∀ n : ℕ, (IdAssigner.mk none n).assign_document_id = some (n, ⟨none, n + 1⟩)) ∧
    ((IdAssigner.new (some ({0, 2, 5} : Finset ℕ))).bind
        (fun A => A.assign_many 7) =
      some ([1, 3, 4, 6, 7, 8, 9], ⟨none, 10⟩)) ∧
    (([1, 3, 4, 6, 7, 8, 9] : List ℕ).Nodup ∧
      ∀ x ∈ ([1, 3, 4, 6, 7, 8, 9] : List ℕ), x ∉ ({0, 2, 5} : Finset ℕ)) := by
  refine ⟨?_, ?_, ?_, by decide, by decide⟩
  · refine ⟨⟨if symmDiff (Finset.range (B.max' h + 1)) B = ∅ then none
        else some (symmDiff (Finset.range (B.max' h + 1)) B), B.max' h + 1⟩, ?_, rfl, ?_, ?_⟩
    · simp only [IdAssigner.new, dif_pos h]
    · by_cases he : symmDiff (Finset.range (B.max' h + 1)) B = ∅
      · simp [he]
      · simp [he]
    · have hsub : B ⊆ Finset.range (B.max' h + 1) := by
        intro x hx
        simp only [Finset.mem_range]
        exact Nat.lt_succ_of_le (B.le_max' x hx)
      have hdiff : symmDiff (Finset.range (B.max' h + 1)) B =
          Finset.range (B.max' h + 1) \ B := by
        rw [symmDiff_def]
        rw [Finset.sdiff_eq_empty_iff_subset.mpr hsub]
        simp
      by_cases he : symmDiff (Finset.range (B.max' h + 1)) B = ∅
      · rw [hdiff] at he
        rw [hdiff, if_pos he, he]
        rfl
      · rw [hdiff] at he ⊢
        rw [if_neg he]
        rfl
  · intro f hf n
    simp only [IdAssigner.assign_document_id, dif_pos hf]
  · intro n
    rfl

/-- Witness for `c4_id_assigner_recycles` at `B = {0,2,5}`. -/
theorem c4_id_assigner_witness :
    (IdAssigner.new (some ({0, 2, 5} : Finset ℕ))).bind (fun A => A.assign_many 7) =
      some ([1, 3, 4, 6, 7, 8, 9], ⟨none, 10⟩) :=
  (c4_id_assigner_recycles {0, 2, 5} (by decide)).2.2.2.1

/-- C9: push delivery uses a 10-second request timeout
(`PUSH_TIMEOUT_MS = 10 * 1000`), sends only while `num_attempts <
PUSH_MAX_ATTEMPTS = 3` (after which the pending state changes are dropped and
the counter reset), and retries only once at least
`PUSH_ATTEMPT_INTERVAL_MS = 60 * 1000` ms have elapsed since the previous
request for that subscription. -/
theorem c9_push_delivery_limits :
    (PUSH_TIMEOUT_MS = 10 * 1000 ∧ http_request_timeout_ms = 10 * 1000 ∧
      PUSH_MAX_ATTEMPTS = 3 ∧ PUSH_ATTEMPT_INTERVAL_MS = 60 * 1000) ∧
    (∀ (throttle_ms : ℕ) (sub : PushServer) (elapsed : ℕ),
      (retry_step throttle_ms sub elapsed).1 = RetryAction.send →
        sub.num_attempts < 3) ∧
    (∀ (throttle_ms : ℕ) (sub : PushServer) (elapsed : ℕ),
      push_event_send_gate throttle_ms sub elapsed = true → sub.num_attempts < 3) ∧
    (∀ (throttle_ms : ℕ) (sub : PushServer) (elapsed : ℕ),
      (retry_step throttle_ms sub elapsed).1 = RetryAction.dropReset →
        3 ≤ sub.num_attempts ∧
        (retry_step throttle_ms sub elapsed).2.state_changes = [] ∧
        (retry_step throttle_ms sub elapsed).2.num_attempts = 0) ∧
    (∀ (throttle_ms : ℕ) (sub : PushServer) (elapsed : ℕ),
      0 < sub.num_attempts →
        (retry_step throttle_ms sub elapsed).1 = RetryAction.send →
          PUSH_ATTEMPT_INTERVAL_MS ≤ elapsed) ∧
    (∀ (throttle_ms : ℕ) (sub : PushServer) (elapsed : ℕ),
      0 < sub.num_attempts → push_event_send_gate throttle_ms sub elapsed = true →
        PUSH_ATTEMPT_INTERVAL_MS ≤ elapsed) := by
  refine ⟨⟨rfl, rfl, rfl, rfl⟩, ?_, ?_, ?_, ?_, ?_⟩
  · intro t sub e hsend
    unfold retry_step at hsend
    split at hsend
    · split at hsend
      · simpa [PUSH_MAX_ATTEMPTS] using ‹sub.num_attempts < PUSH_MAX_ATTEMPTS›
      · exact absurd hsend (by simp)
    · exact absurd hsend (by simp)
  · intro t sub e hgate
    unfold push_event_send_gate at hgate
    simp only [Bool.and_eq_true, Bool.or_eq_true, decide_eq_true_eq] at hgate
    rcases hgate.2 with ⟨h0, _⟩ | ⟨⟨_, hlt⟩, _⟩
    · simpa [PUSH_MAX_ATTEMPTS] using h0 ▸ Nat.zero_lt_succ 2
    · simpa [PUSH_MAX_ATTEMPTS] using hlt
  · intro t sub e hdrop
    unfold retry_step at hdrop ⊢
    split at hdrop
    · split at hdrop
      · exact absurd hdrop (by simp)
      · rename_i hcond hge
        have hge3 : 3 ≤ sub.num_attempts := by
          simp only [PUSH_MAX_ATTEMPTS] at hge
          omega
        refine ⟨hge3, ?_⟩
        rw [if_pos hcond, if_neg hge]
        exact ⟨rfl, rfl⟩
    · exact absurd hdrop (by simp)
  · intro t sub e hpos hsend
    unfold retry_step at hsend
    split at hsend
    · rename_i hcond
      simp only [Bool.and_eq_true, Bool.or_eq_true, decide_eq_true_eq] at hcond
      rcases hcond.2 with ⟨h0, _⟩ | ⟨_, hge⟩
      · omega
      · exact hge
    · exact absurd hsend (by simp)
  · intro t sub e hpos hgate
    unfold push_event_send_gate at hgate
    simp only [Bool.and_eq_true, Bool.or_eq_true, decide_eq_true_eq] at hgate
    rcases hgate.2 with ⟨h0, _⟩ | ⟨_, hgt⟩
    · omega
    · omega

/-- Witness for `c9_push_delivery_limits` at a concrete subscription state:
one prior attempt, exactly the attempt interval elapsed. -/
theorem c9_push_delivery_witness :
    (retry_step 100 ⟨1, [7], false⟩ 60000).1 = RetryAction.send ∧
    (1 : ℕ) < 3 ∧ PUSH_ATTEMPT_INTERVAL_MS ≤ 60000 ∧
    push_event_send_gate 100 ⟨1, [7], false⟩ 60001 = true ∧
    (retry_step 100 ⟨3, [7], false⟩ 60000).1 = RetryAction.dropReset ∧
    (retry_step 100 ⟨3, [7], false⟩ 60000).2.state_changes = [] := by
  have h := c9_push_delivery_limits
  refine ⟨by decide, h.2.1 100 ⟨1, [7], false⟩ 60000 (by decide), ?_, by decide, by decide, ?_⟩
  · exact h.2.2.2.2.1 100 ⟨1, [7], false⟩ 60000 (by decide) (by decide)
  · exact (h.2.2.2.1 100 ⟨3, [7], false⟩ 60000 (by decide)).2.1

/-- A key-nodup association list returns each of its own entries. -/
theorem mapGet_of_mem {V : Type} {m : List (ℕ × V)} (e : ℕ × V)
    (hmem : e ∈ m) (hnodup : (m.map Prod.fst).Nodup) : mapGet m e.1 = some e.2 := by
  induction m with
  | nil => cases hmem
  | cons a rest ih =>
    simp only [List.map_cons, List.nodup_cons] at hnodup
    rcases List.mem_cons.mp hmem with h | h
    · subst h
      simp [mapGet, List.find?]
    · have hne : (a.1 == e.1) = false := by
        rw [beq_eq_false_iff_ne]
        intro hcontra
        exact hnodup.1 (hcontra ▸ List.mem_map.mpr ⟨e, h, rfl⟩)
      simp only [mapGet, List.find?, hne]
      exact ih h hnodup.2

/-- A property whose current value equals the new value is skipped
(merge.rs:52-53). -/
theorem mergeProp_self {V : Type} [DecidableEq V] (S : Schema V)
    (sp : List (ℕ × V)) (p : ℕ) (v : V) (h : mapGet sp p = some v) :
    mergeProp S sp p v = ([], sp, false) := by
  simp [mergeProp, h]

/-- A property pass whose every entry is already present unchanged is a
no-op. -/
theorem mergeProps_self {V : Type} [DecidableEq V] (S : Schema V)
    (ps : List (ℕ × V)) (sp : List (ℕ × V)) (doc : List Mutation)
    (h : ∀ e ∈ ps, mapGet sp e.1 = some e.2) :
    mergeProps S ps sp doc false = (doc, sp, false) := by
  induction ps generalizing doc with
  | nil => rfl
  | cons e rest ih =>
    obtain ⟨p, v⟩ := e
    rw [mergeProps, mergeProp_self S sp p v (h (p, v) (by simp))]
    simpa using ih doc (fun e he => h e (by simp [he]))

/-- `HashSet` equality is reflexive. -/
theorem setEq_refl (s : List ℕ) : setEq s s = true := by
  simp [setEq, List.all_eq_true]

/-- Tag-map equality is reflexive on key-nodup maps. -/
theorem tagMapEq_refl (m : List (ℕ × List ℕ)) (h : (m.map Prod.fst).Nodup) :
    tagMapEq m m = true := by
  simp only [tagMapEq, Bool.and_eq_true, List.all_eq_true]
  constructor
  · intro e he
    rw [mapGet_of_mem e he h]
    exact setEq_refl e.2
  · intro e he
    rw [mapGet_of_mem e he h]
    rfl

/-- C2: merging a snapshot with an identical copy of itself adds zero
mutations to the document and reports `has_changes = false` (`Ok(false)`),
leaving the document unchanged.  The key-nodup hypotheses are the `HashMap`
representation invariant of `properties` and `tags`. -/
theorem c2_merge_self_noop {V : Type} [DecidableEq V] (S : Schema V)
    (P : TinyORM V) (document : List Mutation)
    (hp : (P.properties.map Prod.fst).Nodup) (ht : (P.tags.map Prod.fst).Nodup) :
    TinyORM.merge S P document P = (document, false) := by
  have h1 : mergeProps S P.properties P.properties document false =
      (document, P.properties, false) :=
    mergeProps_self S P.properties P.properties document
      (fun e he => mapGet_of_mem e he hp)
  have h2 : mergeTags P.tags P.tags = ([], false) := by
    simp [mergeTags, tagMapEq_refl P.tags ht]
  have h3 : mergeAcls P.acls P.acls = ([], false) := by
    simp [mergeAcls]
  simp [TinyORM.merge, h1, h2, h3]

/-- Witness for `c2_merge_self_noop` at a concrete ORM over `V = ℕ`. -/
theorem c2_merge_self_witness :
    TinyORM.merge
        ⟨[1], [(1, 2)], fun v => Index.Integer v, fun v => decide (v = 0)⟩
        ⟨[(1, 5), (3, 0)], [(2, [3, 4])], [⟨1, 2⟩]⟩
        [Mutation.insertOrm]
        ⟨[(1, 5), (3, 0)], [(2, [3, 4])], [⟨1, 2⟩]⟩ =
      ([Mutation.insertOrm], false) :=
  c2_merge_self_noop
    ⟨[1], [(1, 2)], fun v => Index.Integer v, fun v => decide (v = 0)⟩
    ⟨[(1, 5), (3, 0)], [(2, [3, 4])], [⟨1, 2⟩]⟩
    [Mutation.insertOrm] (by decide) (by decide)

/-- The `merge_validate` per-property test (merge.rs:19-24) holds iff the new
ORM sets the property empty, or omits it while the previous ORM has none. -/
theorem merge_validate_trigger_iff {V : Type} [DecidableEq V] (S : Schema V)
    (P N : TinyORM V) (p : ℕ) :
    ((match mapGet N.properties p with
      | some v => S.is_empty v
      | none => (mapGet P.properties p).isNone) = true) ↔
    ((∃ v, mapGet N.properties p = some v ∧ S.is_empty v = true) ∨
      (mapGet N.properties p = none ∧ mapGet P.properties p = none)) := by
  cases h : mapGet N.properties p with
  | none => simp [h, Option.isNone_iff_eq_none]
  | some v => simp [h]

/-- C3: `merge_validate(P, document, N)` returns
`Err(InvalidProperty("Property cannot be empty."))` iff some required
property is set empty by `N`, or omitted by `N` with no entry in `P`; the
error always carries that message and a required property; absent any
trigger, it proceeds to `merge` and returns its result. -/
theorem c3_merge_validate_required_gate {V : Type} [DecidableEq V] (S : Schema V)
    (P : TinyORM V) (document : List Mutation) (N : TinyORM V) :
    ((∃ p msg, TinyORM.merge_validate S P document N =
        Except.error (SetError.invalidProperty p msg)) ↔
      ∃ p ∈ S.required,
        (∃ v, mapGet N.properties p = some v ∧ S.is_empty v = true) ∨
        (mapGet N.properties p = none ∧ mapGet P.properties p = none)) ∧
    (∀ p msg, TinyORM.merge_validate S P document N =
        Except.error (SetError.invalidProperty p msg) →
      msg = "Property cannot be empty." ∧ p ∈ S.required) ∧
    ((¬ ∃ p ∈ S.required,
        (∃ v, mapGet N.properties p = some v ∧ S.is_empty v = true) ∨
        (mapGet N.properties p = none ∧ mapGet P.properties p = none)) →
      TinyORM.merge_validate S P document N =
        Except.ok (TinyORM.merge S P document N)) := by
  cases hf : S.required.find? (fun property =>
      match mapGet N.properties property with
      | some v => S.is_empty v
      | none => (mapGet P.properties property).isNone) with
  | some q =>
    have hq : q ∈ S.required := List.mem_of_find?_eq_some hf
    have htrig := List.find?_some hf
    refine ⟨?_, ?_, ?_⟩
    · constructor
      · intro _
        exact ⟨q, hq, (merge_validate_trigger_iff S P N q).mp htrig⟩
      · intro _
        refine ⟨q, "Property cannot be empty.", ?_⟩
        simp only [TinyORM.merge_validate, hf]
    · intro p msg herr
      simp only [TinyORM.merge_validate, hf] at herr
      rcases herr with ⟨rfl, rfl⟩
      exact ⟨rfl, hq⟩
    · intro hno
      exact absurd ⟨q, hq, (merge_validate_trigger_iff S P N q).mp htrig⟩ hno
  | none =>
    have hnone := List.find?_eq_none.mp hf
    refine ⟨?_, ?_, ?_⟩
    · constructor
      · intro ⟨p, msg, herr⟩
        simp only [TinyORM.merge_validate, hf] at herr
        exact Except.noConfusion herr
      · intro ⟨p, hp, hdisj⟩
        exact absurd ((merge_validate_trigger_iff S P N p).mpr hdisj) (by
          simpa using hnone p hp)
    · intro p msg herr
      simp only [TinyORM.merge_validate, hf] at herr
      exact Except.noConfusion herr
    · intro _
      simp only [TinyORM.merge_validate, hf]

/-- Witness for `c3_merge_validate_required_gate`: over `V = ℕ` with
`required = {1}` and emptiness `v = 0`, the previous ORM has property 1 set
to 5 and the new ORM sets it to the empty value 0, so validation fails. -/
theorem c3_merge_validate_witness :
    ∃ p msg,
      TinyORM.merge_validate
          ⟨[1], [], fun v => Index.Integer v, fun v => decide (v = 0)⟩
          ⟨[(1, 5)], [], []⟩ [] ⟨[(1, 0)], [], []⟩ =
        Except.error (SetError.invalidProperty p msg) :=
  (c3_merge_validate_required_gate
      ⟨[1], [], fun v => Index.Integer v, fun v => decide (v = 0)⟩
      ⟨[(1, 5)], [], []⟩ [] ⟨[(1, 0)], [], []⟩).1.mpr
    ⟨1, by simp, Or.inl ⟨0, by decide, by decide⟩⟩

/-- Auxiliary: replacing the association of a different key does not change a
lookup. -/
theorem find?_mapInsertAux {V : Type} (m : List (ℕ × V)) (k q : ℕ) (v : V)
    (h : (k == q) = false) :
    (m.map (fun e => if e.1 == k then (k, v) else e)).find? (fun e => e.1 == q) =
      m.find? (fun e => e.1 == q) := by
  induction m with
  | nil => rfl
  | cons e rest ih =>
    rw [List.map_cons]
    by_cases hek : (e.1 == k) = true
    · have heq : (e.1 == q) = false := by
        rw [beq_iff_eq] at hek
        rw [hek]
        exact h
      rw [if_pos hek]
      simp only [List.find?, h, heq]
      exact ih
    · rw [if_neg hek]
      cases heq : (e.1 == q) with
      | true => simp only [List.find?, heq]
      | false =>
        simp only [List.find?, heq]
        exact ih

/-- `mapGet` after `mapInsert` of a different key. -/
theorem mapGet_mapInsert_ne {V : Type} (m : List (ℕ × V)) (k q : ℕ) (v : V)
    (h : q ≠ k) : mapGet (mapInsert m k v) q = mapGet m q := by
  have hk : (k == q) = false := beq_eq_false_iff_ne.mpr (Ne.symm h)
  unfold mapInsert mapGet
  split
  · rw [find?_mapInsertAux m k q v hk]
  · rw [List.find?_append]
    simp [hk]

/-- `mapGet` after `mapRemove` of a different key. -/
theorem mapGet_mapRemove_ne {V : Type} (m : List (ℕ × V)) (k q : ℕ)
    (h : q ≠ k) : mapGet (mapRemove m k) q = mapGet m q := by
  unfold mapRemove mapGet
  induction m with
  | nil => rfl
  | cons e rest ih =>
    by_cases hek : (e.1 == k) = true
    · have heq : (e.1 == q) = false := by
        rw [beq_iff_eq] at hek
        rw [hek]
        exact beq_eq_false_iff_ne.mpr (Ne.symm h)
      rw [List.filter_cons, if_neg (by simp [bne, hek])]
      simp only [List.find?, heq]
      exact ih
    · rw [List.filter_cons, if_pos (by simp [bne, hek])]
      cases heq : (e.1 == q) with
      | true => simp only [List.find?, heq]
      | false =>
        simp only [List.find?, heq]
        exact ih

/-- Every ADD mutation emitted for a property is keyed by that property. -/
theorem mergePropAdds_emits {V : Type} (S : Schema V) (p : ℕ) (v : V) (m : Mutation)
    (hm : m ∈ (mergePropAdds S p v).1) : m.propertyOf = some p := by
  by_cases hi : isIndexed S p = true
  · cases hx : S.index_as v with
    | Null => simp [mergePropAdds, hi, hx] at hm
    | Text s =>
      simp only [mergePropAdds, hi, hx, if_true] at hm
      rw [List.mem_singleton.mp hm]
      rfl
    | Integer n =>
      simp only [mergePropAdds, hi, hx, if_true] at hm
      rw [List.mem_singleton.mp hm]
      rfl
    | LongInteger n =>
      simp only [mergePropAdds, hi, hx, if_true] at hm
      rw [List.mem_singleton.mp hm]
      rfl
    | TextList l =>
      simp only [mergePropAdds, hi, hx, if_true] at hm
      obtain ⟨item, _, rfl⟩ := List.mem_map.mp hm
      rfl
    | IntegerList l =>
      simp only [mergePropAdds, hi, hx, if_true] at hm
      obtain ⟨item, _, rfl⟩ := List.mem_map.mp hm
      rfl
  · simp only [Bool.not_eq_true] at hi
    simp [mergePropAdds, hi] at hm

/-- Every mutation emitted by the insert branch for a property is either one
of the passed-in CLEARs or keyed by that property. -/
theorem mergePropInsert_emits {V : Type} [DecidableEq V] (S : Schema V)
    (sp : List (ℕ × V)) (p : ℕ) (v : V) (clears : List Mutation) (m : Mutation)
    (hm : m ∈ (mergePropInsert S sp p v clears).1) :
    m ∈ clears ∨ m.propertyOf = some p := by
  rcases List.mem_append.mp hm with h | h
  · exact Or.inl h
  · exact Or.inr (mergePropAdds_emits S p v m h)

/-- Every mutation emitted by one property iteration is keyed by that
property. -/
theorem mergeProp_emits {V : Type} [DecidableEq V] (S : Schema V)
    (sp : List (ℕ × V)) (p : ℕ) (v : V) (m : Mutation)
    (hm : m ∈ (mergeProp S sp p v).1) : m.propertyOf = some p := by
  have hsingle : ∀ (s : String) (o : ℕ), m ∈ [Mutation.text p s o] → m.propertyOf = some p := by
    intro s o h
    rw [List.mem_singleton.mp h]
    rfl
  have hnum : ∀ (n o : ℕ), m ∈ [Mutation.number p n o] → m.propertyOf = some p := by
    intro n o h
    rw [List.mem_singleton.mp h]
    rfl
  unfold mergeProp at hm
  cases hg : mapGet sp p with
  | none =>
    simp only [hg] at hm
    rcases mergePropInsert_emits S sp p v [] m hm with h | h
    · cases h
    · exact h
  | some cv =>
    simp only [hg] at hm
    by_cases he : cv = v
    · rw [if_pos he] at hm
      cases hm
    · rw [if_neg he] at hm
      by_cases hi : isIndexed S p = true
      · rw [if_pos hi] at hm
        cases hx : S.index_as cv with
        | Null =>
          rw [hx] at hm
          rcases mergePropInsert_emits S sp p v [] m hm with h | h
          · cases h
          · exact h
        | Text s =>
          rw [hx] at hm
          rcases mergePropInsert_emits S sp p v _ m hm with h | h
          · exact hsingle _ _ h
          · exact h
        | Integer n =>
          rw [hx] at hm
          rcases mergePropInsert_emits S sp p v _ m hm with h | h
          · exact hnum _ _ h
          · exact h
        | LongInteger n =>
          rw [hx] at hm
          rcases mergePropInsert_emits S sp p v _ m hm with h | h
          · exact hnum _ _ h
          · exact h
        | TextList cl =>
          rw [hx] at hm
          cases hx2 : S.index_as v with
          | TextList nl =>
            rw [hx2] at hm
            rcases List.mem_append.mp hm with h | h
            · obtain ⟨item, _, rfl⟩ := List.mem_map.mp h
              rfl
            · obtain ⟨item, _, rfl⟩ := List.mem_map.mp h
              rfl
          | Null =>
            rw [hx2] at hm
            obtain ⟨item, _, rfl⟩ := List.mem_map.mp hm
            rfl
          | Text s =>
            rw [hx2] at hm
            obtain ⟨item, _, rfl⟩ := List.mem_map.mp hm
            rfl
          | Integer n =>
            rw [hx2] at hm
            obtain ⟨item, _, rfl⟩ := List.mem_map.mp hm
            rfl
          | LongInteger n =>
            rw [hx2] at hm
            obtain ⟨item, _, rfl⟩ := List.mem_map.mp hm
            rfl
          | IntegerList nl =>
            rw [hx2] at hm
            obtain ⟨item, _, rfl⟩ := List.mem_map.mp hm
            rfl
        | IntegerList cl =>
          rw [hx] at hm
          cases hx2 : S.index_as v with
          | IntegerList nl =>
            rw [hx2] at hm
            rcases List.mem_append.mp hm with h | h
            · obtain ⟨item, _, rfl⟩ := List.mem_map.mp h
              rfl
            · obtain ⟨item, _, rfl⟩ := List.mem_map.mp h
              rfl
          | Null =>
            rw [hx2] at hm
            obtain ⟨item, _, rfl⟩ := List.mem_map.mp hm
            rfl
          | Text s =>
            rw [hx2] at hm
            obtain ⟨item, _, rfl⟩ := List.mem_map.mp hm
            rfl
          | Integer n =>
            rw [hx2] at hm
            obtain ⟨item, _, rfl⟩ := List.mem_map.mp hm
            rfl
          | LongInteger n =>
            rw [hx2] at hm
            obtain ⟨item, _, rfl⟩ := List.mem_map.mp hm
            rfl
          | TextList nl =>
            rw [hx2] at hm
            obtain ⟨item, _, rfl⟩ := List.mem_map.mp hm
            rfl
      · simp only [Bool.not_eq_true] at hi
        rw [hi] at hm
        simp only [Bool.false_eq_true, if_false] at hm
        rcases mergePropInsert_emits S sp p v [] m hm with h | h
        · cases h
        · exact h

/-- One property iteration does not change lookups of other properties. -/
theorem mergeProp_preserves_mapGet {V : Type} [DecidableEq V] (S : Schema V)
    (sp : List (ℕ × V)) (p' : ℕ) (v : V) (q : ℕ) (h : q ≠ p') :
    mapGet (mergeProp S sp p' v).2.1 q = mapGet sp q := by
  have hins : mapGet (mapInsert sp p' v) q = mapGet sp q :=
    mapGet_mapInsert_ne sp p' q v h
  have hrem : mapGet (mapRemove sp p') q = mapGet sp q :=
    mapGet_mapRemove_ne sp p' q h
  have hbr : ∀ clears, mapGet (mergePropInsert S sp p' v clears).2.1 q = mapGet sp q := by
    intro clears
    unfold mergePropInsert
    split
    · exact hins
    · exact hrem
  unfold mergeProp
  cases hg : mapGet sp p' with
  | none => exact hbr []
  | some cv =>
    simp only []
    by_cases he : cv = v
    · rw [if_pos he]
    · rw [if_neg he]
      by_cases hi : isIndexed S p' = true
      · rw [if_pos hi]
        cases hx : S.index_as cv with
        | Null => exact hbr []
        | Text s => exact hbr _
        | Integer n => exact hbr _
        | LongInteger n => exact hbr _
        | TextList cl =>
          cases hx2 : S.index_as v with
          | TextList nl => exact hins
          | Null => exact hrem
          | Text s => exact hrem
          | Integer n => exact hrem
          | LongInteger n => exact hrem
          | IntegerList nl => exact hrem
        | IntegerList cl =>
          cases hx2 : S.index_as v with
          | IntegerList nl => exact hins
          | Null => exact hrem
          | Text s => exact hrem
          | Integer n => exact hrem
          | LongInteger n => exact hrem
          | TextList nl => exact hrem
      · rw [if_neg hi]
        exact hbr []

/-- The property pass over a list avoiding `p` neither emits mutations keyed
by `p` nor changes the lookup of `p`. -/
theorem mergeProps_avoid {V : Type} [DecidableEq V] (S : Schema V)
    (ps : List (ℕ × V)) (sp : List (ℕ × V)) (doc : List Mutation) (hc : Bool)
    (p : ℕ) (h : p ∉ ps.map Prod.fst) :
    ((mergeProps S ps sp doc hc).1.filter (fun m => m.propertyOf == some p) =
      doc.filter (fun m => m.propertyOf == some p)) ∧
    (mapGet (mergeProps S ps sp doc hc).2.1 p = mapGet sp p) := by
  induction ps generalizing sp doc hc with
  | nil => exact ⟨rfl, rfl⟩
  | cons e rest ih =>
    obtain ⟨q, w⟩ := e
    simp only [List.map_cons, List.mem_cons, not_or] at h
    rw [mergeProps]
    obtain ⟨ih1, ih2⟩ := ih (mergeProp S sp q w).2.1 (doc ++ (mergeProp S sp q w).1)
      (hc || (mergeProp S sp q w).2.2) h.2
    refine ⟨?_, ?_⟩
    · rw [ih1, List.filter_append]
      have hnil : (mergeProp S sp q w).1.filter (fun m => m.propertyOf == some p) = [] := by
        rw [List.filter_eq_nil_iff]
        intro m hm
        rw [mergeProp_emits S sp q w m hm]
        have hqp : q ≠ p := fun hqp => h.1 hqp.symm
        simp [hqp]
      rw [hnil, List.append_nil]
    · rw [ih2, mergeProp_preserves_mapGet S sp q w p h.1]

/-- Once `has_changes` is set it stays set through the property pass. -/
theorem mergeProps_hc_true {V : Type} [DecidableEq V] (S : Schema V)
    (ps : List (ℕ × V)) (sp : List (ℕ × V)) (doc : List Mutation) :
    (mergeProps S ps sp doc true).2.2 = true := by
  induction ps generalizing sp doc with
  | nil => rfl
  | cons e rest ih =>
    obtain ⟨q, w⟩ := e
    rw [mergeProps]
    simp only [Bool.true_or]
    exact ih _ _

/-- Splitting the property pass at a list split point. -/
theorem mergeProps_append {V : Type} [DecidableEq V] (S : Schema V)
    (xs ys : List (ℕ × V)) (sp : List (ℕ × V)) (doc : List Mutation) (hc : Bool) :
    mergeProps S (xs ++ ys) sp doc hc =
      mergeProps S ys (mergeProps S xs sp doc hc).2.1
        (mergeProps S xs sp doc hc).1 (mergeProps S xs sp doc hc).2.2 := by
  induction xs generalizing sp doc hc with
  | nil => rfl
  | cons e rest ih =>
    obtain ⟨q, w⟩ := e
    rw [List.cons_append, mergeProps, mergeProps, ih]

/-- Processing a property absent from the map, whose value indexes as `Null`
(indexed) or is empty (non-indexed), emits nothing yet sets `has_changes`
(merge.rs:155-200: the insert branch stores nothing and removes the
property, then `has_changes` is set). -/
theorem mergeProp_null_or_empty {V : Type} [DecidableEq V] (S : Schema V)
    (sp : List (ℕ × V)) (p : ℕ) (v : V)
    (hget : mapGet sp p = none)
    (hcase : (isIndexed S p = true ∧ S.index_as v = Index.Null) ∨
      (isIndexed S p = false ∧ S.is_empty v = true)) :
    mergeProp S sp p v = ([], mapRemove sp p, true) := by
  unfold mergeProp mergePropInsert mergePropAdds
  rw [hget]
  rcases hcase with ⟨hi, hx⟩ | ⟨hi, he⟩
  · simp [hi, hx]
  · simp [hi, he]

/-- Every mutation emitted by the tag pass is keyed by a property appearing
in one of the two tag maps. -/
theorem mergeTags_emits (selfTags changesTags : List (ℕ × List ℕ)) (m : Mutation)
    (hm : m ∈ (mergeTags selfTags changesTags).1) :
    ∃ q, m.propertyOf = some q ∧
      (q ∈ selfTags.map Prod.fst ∨ q ∈ changesTags.map Prod.fst) := by
  unfold mergeTags at hm
  split at hm
  · cases hm
  · rcases List.mem_append.mp hm with h | h
    · rcases List.mem_flatMap.mp h with ⟨e, he, hme⟩
      refine ⟨e.1, ?_, Or.inl (List.mem_map.mpr ⟨e, he, rfl⟩)⟩
      cases hmg : mapGet changesTags e.1 with
      | none =>
        simp only [hmg] at hme
        cases hme
      | some ct =>
        simp only [hmg] at hme
        by_cases hse : setEq e.2 ct = true
        · rw [if_pos hse] at hme
          cases hme
        · rw [if_neg hse] at hme
          obtain ⟨t, _, rfl⟩ := List.mem_map.mp hme
          rfl
    · rcases List.mem_flatMap.mp h with ⟨e, he, hme⟩
      refine ⟨e.1, ?_, Or.inr (List.mem_map.mpr ⟨e, he, rfl⟩)⟩
      cases hmg : mapGet selfTags e.1 with
      | none =>
        simp only [hmg] at hme
        obtain ⟨t, _, rfl⟩ := List.mem_map.mp hme
        rfl
      | some tags =>
        simp only [hmg] at hme
        by_cases hse : setEq e.2 tags = true
        · rw [if_pos hse] at hme
          cases hme
        · rw [if_neg hse] at hme
          obtain ⟨t, _, rfl⟩ := List.mem_map.mp hme
          rfl

/-- The ACL pass emits no property-keyed mutation. -/
theorem mergeAcls_no_property (selfAcls changesAcls : List ACLEntry) (p : ℕ) :
    (mergeAcls selfAcls changesAcls).1.filter (fun m => m.propertyOf == some p) = [] := by
  unfold mergeAcls
  split
  · rfl
  · rw [List.filter_append]
    have h1 : ∀ (l : List ACLEntry) (o : ℕ),
        (l.map (fun a => Mutation.acl a.id a.acl o)).filter
          (fun m => m.propertyOf == some p) = [] := by
      intro l o
      rw [List.filter_eq_nil_iff]
      intro m hm
      obtain ⟨a, _, rfl⟩ := List.mem_map.mp hm
      simp [Mutation.propertyOf]
    rw [h1, h1, List.append_nil]

/-- C10: when `N` carries a property `p` absent from `P` whose value indexes
as `Null` (indexed) or is empty (non-indexed), and `p` is not a tag key of
either side, `merge` emits no text/number/tag/ACL mutation keyed by `p` yet
sets `has_changes` and returns `Ok(true)`, re-serializing the ORM into the
document (the final mutation); `merge = false` therefore cannot be inferred
from the emitted index mutations being empty.  The key-nodup hypothesis is
the `HashMap` representation invariant of `N.properties`. -/
theorem c10_change_without_index_mutation {V : Type} [DecidableEq V] (S : Schema V)
    (P N : TinyORM V) (document : List Mutation) (p : ℕ) (v : V)
    (hmem : (p, v) ∈ N.properties)
    (hnodup : (N.properties.map Prod.fst).Nodup)
    (habsent : mapGet P.properties p = none)
    (hcase : (isIndexed S p = true ∧ S.index_as v = Index.Null) ∨
      (isIndexed S p = false ∧ S.is_empty v = true))
    (hpt : p ∉ P.tags.map Prod.fst) (hnt : p ∉ N.tags.map Prod.fst) :
    (TinyORM.merge S P document N).2 = true ∧
    (TinyORM.merge S P document N).1.filter (fun m => m.propertyOf == some p) =
      document.filter (fun m => m.propertyOf == some p) ∧
    (TinyORM.merge S P document N).1.getLast? = some Mutation.insertOrm := by
  obtain ⟨pre, post, hsp⟩ := List.append_of_mem hmem
  have hkeys : N.properties.map Prod.fst = pre.map Prod.fst ++ p :: post.map Prod.fst := by
    rw [hsp]
    simp
  have hnodup2 : (pre.map Prod.fst ++ p :: post.map Prod.fst).Nodup := hkeys ▸ hnodup
  obtain ⟨hnA, hnB, hdisj⟩ := List.nodup_append.mp hnodup2
  have hppre : p ∉ pre.map Prod.fst := fun hpin => hdisj hpin (List.mem_cons_self p _)
  have hppost : p ∉ post.map Prod.fst := (List.nodup_cons.mp hnB).1
  obtain ⟨hf1, hg1⟩ := mergeProps_avoid S pre P.properties document false p hppre
  have hget1 : mapGet (mergeProps S pre P.properties document false).2.1 p = none := by
    rw [hg1, habsent]
  have hr_filter : (mergeProps S N.properties P.properties document false).1.filter
      (fun m => m.propertyOf == some p) =
      document.filter (fun m => m.propertyOf == some p) := by
    rw [hsp, mergeProps_append, mergeProps,
      mergeProp_null_or_empty S _ p v hget1 hcase]
    rw [(mergeProps_avoid S post _ _ _ p hppost).1]
    simp only [List.append_nil]
    exact hf1
  have hr_hc : (mergeProps S N.properties P.properties document false).2.2 = true := by
    rw [hsp, mergeProps_append, mergeProps,
      mergeProp_null_or_empty S _ p v hget1 hcase]
    simp only [Bool.or_true]
    exact mergeProps_hc_true S post _ _
  have htags_filter : (mergeTags P.tags N.tags).1.filter
      (fun m => m.propertyOf == some p) = [] := by
    rw [List.filter_eq_nil_iff]
    intro m hm
    obtain ⟨q, hq, hmem2⟩ := mergeTags_emits P.tags N.tags m hm
    have hqp : q ≠ p := by
      rintro rfl
      rcases hmem2 with h | h
      · exact hpt h
      · exact hnt h
    simp [hq, hqp]
  have hacls_filter := mergeAcls_no_property P.acls N.acls p
  refine ⟨?_, ?_, ?_⟩
  · simp only [TinyORM.merge, hr_hc, Bool.true_or, if_true]
  · simp only [TinyORM.merge, hr_hc, Bool.true_or, if_true]
    simp only [List.filter_append, hr_filter, htags_filter, hacls_filter]
    simp [Mutation.propertyOf]
  · simp only [TinyORM.merge, hr_hc, Bool.true_or, if_true]
    exact List.getLast?_concat _

/-- Witness for `c10_change_without_index_mutation`: over `V = ℕ`, property 1
is indexed but the new value indexes as `Null`; the merge of `N = {1 ↦ 7}`
into an empty `P` emits only the ORM re-serialization and reports a change. -/
theorem c10_change_witness :
    (TinyORM.merge ⟨[], [(1, 3)], fun _ => Index.Null, fun _ => false⟩
        ⟨[], [], []⟩ [Mutation.text 2 "a" 0] ⟨[(1, 7)], [], []⟩).2 = true ∧
    (TinyORM.merge ⟨[], [(1, 3)], fun _ => Index.Null, fun _ => false⟩
        ⟨[], [], []⟩ [Mutation.text 2 "a" 0] ⟨[(1, 7)], [], []⟩).1.filter
      (fun m => m.propertyOf == some 1) =
      ([Mutation.text 2 "a" 0] : List Mutation).filter (fun m => m.propertyOf == some 1) ∧
    (TinyORM.merge ⟨[], [(1, 3)], fun _ => Index.Null, fun _ => false⟩
        ⟨[], [], []⟩ [Mutation.text 2 "a" 0] ⟨[(1, 7)], [], []⟩).1.getLast? =
      some Mutation.insertOrm :=
  c10_change_without_index_mutation
    ⟨[], [(1, 3)], fun _ => Index.Null, fun _ => false⟩
    ⟨[], [], []⟩ ⟨[(1, 7)], [], []⟩ [Mutation.text 2 "a" 0] 1 7
    (by decide) (by decide) (by decide) (Or.inl ⟨by decide, rfl⟩)
    (by decide) (by decide)

/-- Witness for `c6_log_behind_or_eq_refl_antisymm` at concrete `RaftId`s. -/
theorem c6_log_behind_or_eq_witness :
    log_is_behind_or_eq ⟨3, 7⟩ 3 7 = true ∧
    ((log_is_behind_or_eq ⟨3, 7⟩ 3 7 = true ∧ log_is_behind_or_eq ⟨3, 7⟩ 3 7 = true) ↔
      (⟨3, 7⟩ : RaftId) = ⟨3, 7⟩) ∧
    log_is_behind_or_eq ⟨3, U64_MAX⟩ 3 7 = true := by
  obtain ⟨h1, h2, h3⟩ := c6_log_behind_or_eq_refl_antisymm
  exact ⟨h1 ⟨3, 7⟩, h2 ⟨3, 7⟩ ⟨3, 7⟩ (by norm_num) (by norm_num), h3 3 7 (by norm_num)⟩

end Stalwart
